import Mathlib

/-!
Verification development for `calculate_weirdness.py`, the Language Weirdness
Calculator.  The program has two components: a Rarity Estimator
(`calculate_feature_rarity_scores`) that turns each feature column of a WALS
dataset into a map from feature value to rarity score `1 - frequency`, and a
Weirdness Aggregator (`calculate_weirdness_scores`) that averages, per
language, the rarity scores of the values it has data for.  `main` then drops
records with no score and filters a robust subset by `num_features >=
MIN_FEATURES`.

Modelling conventions: Python floats are modelled as `ℚ`; pandas missing
values (`NaN`) as absence from the association list of feature values of a row;
Python dicts/`Counter`s as association lists in insertion order (for a
`Counter`, first-occurrence order of the keys); the stable Python `list.sort`
as `List.insertionSort`, which is stable; `Counter.most_common(1)[0]`
(a `max` scan keeping the first maximum) as a left fold keeping the earlier
entry on ties.
-/

namespace CalcWeirdness

/-- One row of the dataframe: the ten leading metadata columns that the
aggregator copies into its output, plus the feature columns as an association
list; a feature absent from `feats` is a missing (`NaN`) value. -/
structure Row where
  name : String
  wals_code : String
  latitude : Option ℚ
  longitude : Option ℚ
  family : Option String
  genus : Option String
  macroarea : Option String
  feats : List (String × String)
deriving DecidableEq

/-- Dictionary lookup on an association list: value of the first pair whose
key matches (Python `d[k]` / `k in d`). -/
def lookupKey {α : Type} (l : List (String × α)) (k : String) : Option α :=
  (l.find? (fun p => p.1 == k)).map Prod.snd

/-- `row[feature]`: `some v` for a present categorical value, `none` for a
missing (`NaN`) cell. -/
def getVal (row : Row) (f : String) : Option String :=
  lookupKey row.feats f

/-- `df[feature].dropna()`: the non-missing values of a feature column, in
row order. -/
def dropna (rows : List Row) (f : String) : List String :=
  rows.filterMap (fun row => getVal row f)

/-- The distinct elements of `l` in first-occurrence order: the key order of
`collections.Counter(l)`. -/
def firstKeys (l : List String) : List String :=
  l.reverse.dedup.reverse

/-- `collections.Counter(values)` as an association list: each distinct value
with its multiplicity, keys in first-occurrence order. -/
def countList (l : List String) : List (String × Nat) :=
  (firstKeys l).map (fun v => (v, l.count v))

/-- Left-to-right maximum scan over counter entries, keeping the earlier
entry on ties: the behaviour of `max` (hence of `most_common(1)`) on
`Counter.items()`. -/
def maxScan : Option (String × Nat) → List (String × Nat) → Option (String × Nat)
  | acc, [] => acc
  | none, p :: rest => maxScan (some p) rest
  | some q, p :: rest => maxScan (some (if q.2 < p.2 then p else q)) rest

/-- `value_counts.most_common(1)[0] if value_counts else None`. -/
def most_common (l : List String) : Option (String × Nat) :=
  maxScan none (countList l)

/-- The per-feature entry of `feature_stats`. -/
structure FeatureStat where
  total_responses : Nat
  unique_values : Nat
  most_common : Option (String × Nat)
deriving DecidableEq

/-- The per-feature rarity map `feature_rarity`:
`rarity(v) = 1 - count(v) / total`. -/
def featureRarity (vals : List String) : List (String × ℚ) :=
  (countList vals).map (fun p => (p.1, 1 - (p.2 : ℚ) / (vals.length : ℚ)))

/-- The Rarity Table: feature identifier to rarity map. -/
abbrev RarityTable := List (String × List (String × ℚ))

/-- `calculate_feature_rarity_scores(df, feature_cols)`: for each feature
column with at least one non-missing value, its rarity map and its statistics
entry; a feature with zero non-missing values is skipped (`continue`). -/
def calculate_feature_rarity_scores (rows : List Row) :
    List String → RarityTable × List (String × FeatureStat)
  | [] => ([], [])
  | f :: rest =>
    let vals := dropna rows f
    let r := calculate_feature_rarity_scores rows rest
    if vals.length = 0 then r
    else ((f, featureRarity vals) :: r.1,
          (f, ⟨vals.length, (countList vals).length, most_common vals⟩) :: r.2)

/-- One entry of `feature_contributions`. -/
structure Contribution where
  feature : String
  value : String
  rarity : ℚ
deriving DecidableEq

/-- The body of the per-feature loop of the aggregator: `none` when the value is
missing, when the feature has no rarity map, or when the value is absent from
that map (the three `continue`/skip paths); otherwise the contribution. -/
def scoreFeature (rt : RarityTable) (row : Row) (f : String) : Option Contribution :=
  match getVal row f with
  | none => none
  | some v =>
    match lookupKey rt f with
    | none => none
    | some m =>
      match lookupKey m v with
      | none => none
      | some r => some ⟨f, v, r⟩

/-- The aggregator loop over `feature_cols`, building `language_rarities`
and `feature_contributions` in feature-column order. -/
def collectLoop (rt : RarityTable) (row : Row) : List String → List ℚ × List Contribution
  | [] => ([], [])
  | f :: rest =>
    let r := collectLoop rt row rest
    match scoreFeature rt row f with
    | none => r
    | some c => (c.rarity :: r.1, c :: r.2)

/-- One row of `weirdness_data`. -/
structure WRecord where
  name : String
  wals_code : String
  latitude : Option ℚ
  longitude : Option ℚ
  family : Option String
  genus : Option String
  macroarea : Option String
  weirdness_score : Option ℚ
  num_features : Nat
  top_weird_features : List Contribution
deriving DecidableEq

/-- The sort key of `feature_contributions.sort(key=..., reverse=True)`:
`a` may precede `b` when `b.rarity ≤ a.rarity` (descending). -/
def contribGE (a b : Contribution) : Prop :=
  b.rarity ≤ a.rarity

instance : DecidableRel contribGE :=
  fun a b => inferInstanceAs (Decidable (b.rarity ≤ a.rarity))

instance : IsTotal Contribution contribGE :=
  ⟨fun a b => le_total b.rarity a.rarity⟩

instance : IsTrans Contribution contribGE :=
  ⟨fun _ _ _ h1 h2 => le_trans h2 h1⟩

/-- The record the aggregator appends for one row: mean rarity and feature
count when `language_rarities` is non-empty, `None`/`0` otherwise, and the
contributions stably sorted by rarity descending, truncated to 5. -/
def mkRecord (rt : RarityTable) (cols : List String) (row : Row) : WRecord :=
  let rc := collectLoop rt row cols
  ⟨row.name, row.wals_code, row.latitude, row.longitude,
   row.family, row.genus, row.macroarea,
   if rc.1 = [] then none else some (rc.1.sum / (rc.1.length : ℚ)),
   if rc.1 = [] then 0 else rc.1.length,
   (List.insertionSort contribGE rc.2).take 5⟩

/-- `calculate_weirdness_scores(df, feature_cols, rarity_scores)`: one record
per dataframe row, in row order. -/
def calculate_weirdness_scores (rows : List Row) (cols : List String)
    (rt : RarityTable) : List WRecord :=
  rows.map (mkRecord rt cols)

/-- The `notna` row filter applied to `weirdness_df` in `main`:
the aggregator output with the unscorable rows removed. -/
def scoredRecords (rows : List Row) (cols : List String) (rt : RarityTable) :
    List WRecord :=
  (calculate_weirdness_scores rows cols rt).filter (fun r => r.weirdness_score.isSome)

/-- `MIN_FEATURES = 30`. -/
def MIN_FEATURES : Nat := 30

/-- The row filter keeping records whose `num_features` is at least `t`. -/
def robustSubset (out : List WRecord) (t : Nat) : List WRecord :=
  out.filter (fun r => decide (t ≤ r.num_features))

/-- The scored output of `main`: aggregation over the rarity table built from
the same dataset, with unscorable rows removed. -/
def mainScored (rows : List Row) (cols : List String) : List WRecord :=
  scoredRecords rows cols (calculate_feature_rarity_scores rows cols).1

/-- `weirdness_df_robust` in `main`. -/
def mainRobust (rows : List Row) (cols : List String) : List WRecord :=
  robustSubset (mainScored rows cols) MIN_FEATURES

/-! ### Concrete witness data

A five-language dataset over one feature column `F` with values
`[A, A, A, B]` and one all-missing language, and a two-language dataset over
two columns realising a rarity tie. -/

def rowA1 : Row := ⟨"LangA1", "a1", none, none, none, none, none, [("F", "A")]⟩

def rowA2 : Row := ⟨"LangA2", "a2", none, none, none, none, none, [("F", "A")]⟩

def rowA3 : Row := ⟨"LangA3", "a3", none, none, none, none, none, [("F", "A")]⟩

def rowB4 : Row := ⟨"LangB4", "b4", none, none, none, none, none, [("F", "B")]⟩

def rowE5 : Row := ⟨"LangE5", "e5", none, none, none, none, none, []⟩

def rowsW : List Row := [rowA1, rowA2, rowA3, rowB4, rowE5]

def colsW : List String := ["F"]

def rtW : RarityTable := (calculate_feature_rarity_scores rowsW colsW).1

def rowX1 : Row := ⟨"LangX1", "x1", none, none, none, none, none, [("F", "A"), ("G", "B")]⟩

def rowX2 : Row := ⟨"LangX2", "x2", none, none, none, none, none, [("F", "B"), ("G", "A")]⟩

def rowsX : List Row := [rowX1, rowX2]

def colsX : List String := ["F", "G"]

def rtX : RarityTable := (calculate_feature_rarity_scores rowsX colsX).1

/-- The contribution `rowX1` collects from column `"F"` (value `"A"`,
rarity `1 - 1/2`). -/
def cFA : Contribution := ⟨"F", "A", 1 - ((1 : ℕ) : ℚ) / ((2 : ℕ) : ℚ)⟩

/-- The contribution `rowX1` collects from column `"G"` (value `"B"`,
rarity `1 - 1/2`, tied with `cFA`). -/
def cGB : Contribution := ⟨"G", "B", 1 - ((1 : ℕ) : ℚ) / ((2 : ℕ) : ℚ)⟩

/-! ### Lookup and counting lemmas -/

theorem lookupKey_nil {α : Type} (k : String) : lookupKey ([] : List (String × α)) k = none :=
  rfl

theorem lookupKey_cons {α : Type} (p : String × α) (l : List (String × α)) (k : String) :
    lookupKey (p :: l) k = if p.1 = k then some p.2 else lookupKey l k := by
  by_cases h : p.1 = k
  · simp [lookupKey, List.find?_cons_of_pos, h]
  · simp [lookupKey, List.find?_cons_of_neg, h]

theorem lookupKey_map_self {α : Type} (g : String → α) (keys : List String) (v : String) :
    lookupKey (keys.map (fun k => (k, g k))) v =
      if v ∈ keys then some (g v) else none := by
  induction keys with
  | nil => simp [lookupKey_nil]
  | cons k rest ih =>
    by_cases h : k = v
    · subst h
      simp [lookupKey_cons]
    · simp [lookupKey_cons, h, ih, List.mem_cons, Ne.symm h]

theorem mem_firstKeys {a : String} {l : List String} : a ∈ firstKeys l ↔ a ∈ l := by
  simp [firstKeys]

theorem nodup_firstKeys (l : List String) : (firstKeys l).Nodup := by
  simp only [firstKeys, List.nodup_reverse]
  exact l.reverse.nodup_dedup

theorem firstKeys_perm_dedup (l : List String) : (firstKeys l).Perm l.dedup :=
  (List.perm_ext_iff_of_nodup (nodup_firstKeys l) l.nodup_dedup).mpr
    (fun a => by simp [mem_firstKeys, List.mem_dedup])

theorem length_firstKeys (l : List String) : (firstKeys l).length = l.dedup.length :=
  (firstKeys_perm_dedup l).length_eq

theorem toFinset_firstKeys (l : List String) : (firstKeys l).toFinset = l.toFinset := by
  ext a
  simp [mem_firstKeys]

theorem sum_counts_firstKeys (l : List String) :
    ((firstKeys l).map (fun v => l.count v)).sum = l.length := by
  rw [← List.sum_toFinset _ (nodup_firstKeys l), toFinset_firstKeys,
    List.sum_toFinset_count_eq_length]

theorem firstKeys_ne_nil {l : List String} (h : l ≠ []) : firstKeys l ≠ [] := by
  intro hk
  rcases List.exists_mem_of_ne_nil l h with ⟨a, ha⟩
  have : a ∈ firstKeys l := mem_firstKeys.mpr ha
  simp [hk] at this

theorem countList_mem {l : List String} {p : String × Nat} (hp : p ∈ countList l) :
    p.1 ∈ l ∧ p.2 = l.count p.1 := by
  simp only [countList, List.mem_map] at hp
  rcases hp with ⟨v, hv, rfl⟩
  exact ⟨mem_firstKeys.mp hv, rfl⟩

theorem featureRarity_eq (vals : List String) :
    featureRarity vals =
      (firstKeys vals).map
        (fun v => (v, 1 - (vals.count v : ℚ) / (vals.length : ℚ))) := by
  simp [featureRarity, countList, List.map_map, Function.comp]

theorem lookupKey_featureRarity (vals : List String) (v : String) :
    lookupKey (featureRarity vals) v =
      if v ∈ vals then some (1 - (vals.count v : ℚ) / (vals.length : ℚ)) else none := by
  rw [featureRarity_eq, lookupKey_map_self]
  simp [mem_firstKeys]

theorem featureRarity_bounds {vals : List String} {p : String × ℚ}
    (hp : p ∈ featureRarity vals) : 0 ≤ p.2 ∧ p.2 < 1 := by
  rw [featureRarity_eq] at hp
  simp only [List.mem_map] at hp
  rcases hp with ⟨v, hv, rfl⟩
  have hvl : v ∈ vals := mem_firstKeys.mp hv
  have hlen : 0 < vals.length := List.length_pos.mpr (List.ne_nil_of_mem hvl)
  have hcpos : 0 < vals.count v := List.count_pos_iff.mpr hvl
  have hcle : vals.count v ≤ vals.length := vals.count_le_length v
  have hlenQ : (0 : ℚ) < (vals.length : ℚ) := by exact_mod_cast hlen
  constructor
  · have : (vals.count v : ℚ) / (vals.length : ℚ) ≤ 1 := by
      rw [div_le_one hlenQ]
      exact_mod_cast hcle
    simpa using this
  · have : (0 : ℚ) < (vals.count v : ℚ) / (vals.length : ℚ) := by
      apply div_pos _ hlenQ
      exact_mod_cast hcpos
    simpa using this

/-! ### Estimator output characterization -/

theorem table_lookup_eq (rows : List Row) (cols : List String) (f : String) :
    lookupKey (calculate_feature_rarity_scores rows cols).1 f =
      if f ∈ cols ∧ dropna rows f ≠ [] then some (featureRarity (dropna rows f))
      else none := by
  induction cols with
  | nil => simp [calculate_feature_rarity_scores, lookupKey_nil]
  | cons g rest ih =>
    simp only [calculate_feature_rarity_scores]
    by_cases hg : (dropna rows g).length = 0
    · rw [if_pos hg, ih]
      by_cases hfg : g = f
      · subst hfg
        have : dropna rows g = [] := List.length_eq_zero.mp hg
        simp [this]
      · have hfg2 : ¬f = g := fun h => hfg h.symm
        simp [List.mem_cons, hfg2]
    · rw [if_neg hg]
      simp only [lookupKey_cons]
      by_cases hfg : g = f
      · subst hfg
        have : dropna rows g ≠ [] := fun h => hg (by simp [h])
        simp [this]
      · rw [if_neg hfg, ih]
        have hfg2 : ¬f = g := fun h => hfg h.symm
        simp [List.mem_cons, hfg2]

theorem stats_lookup_eq (rows : List Row) (cols : List String) (f : String) :
    lookupKey (calculate_feature_rarity_scores rows cols).2 f =
      if f ∈ cols ∧ dropna rows f ≠ [] then
        some ⟨(dropna rows f).length, (countList (dropna rows f)).length,
              most_common (dropna rows f)⟩
      else none := by
  induction cols with
  | nil => simp [calculate_feature_rarity_scores, lookupKey_nil]
  | cons g rest ih =>
    simp only [calculate_feature_rarity_scores]
    by_cases hg : (dropna rows g).length = 0
    · rw [if_pos hg, ih]
      by_cases hfg : g = f
      · subst hfg
        have : dropna rows g = [] := List.length_eq_zero.mp hg
        simp [this]
      · have hfg2 : ¬f = g := fun h => hfg h.symm
        simp [List.mem_cons, hfg2]
    · rw [if_neg hg]
      simp only [lookupKey_cons]
      by_cases hfg : g = f
      · subst hfg
        have : dropna rows g ≠ [] := fun h => hg (by simp [h])
        simp [this]
      · rw [if_neg hfg, ih]
        have hfg2 : ¬f = g := fun h => hfg h.symm
        simp [List.mem_cons, hfg2]

theorem getVal_mem_dropna {rows : List Row} {row : Row} {f : String} {v : String}
    (hrow : row ∈ rows) (hv : getVal row f = some v) : v ∈ dropna rows f := by
  simp only [dropna, List.mem_filterMap]
  exact ⟨row, hrow, hv⟩

/-! ### Aggregator loop lemmas -/

theorem scoreFeature_eq_some {rt : RarityTable} {row : Row} {f : String} {c : Contribution}
    (h : scoreFeature rt row f = some c) :
    ∃ v m, getVal row f = some v ∧ lookupKey rt f = some m ∧
      lookupKey m v = some c.rarity ∧ c.feature = f ∧ c.value = v := by
  unfold scoreFeature at h
  cases h1 : getVal row f with
  | none => rw [h1] at h; cases h
  | some v =>
    rw [h1] at h
    dsimp only at h
    cases h2 : lookupKey rt f with
    | none => rw [h2] at h; cases h
    | some m =>
      rw [h2] at h
      dsimp only at h
      cases h3 : lookupKey m v with
      | none => rw [h3] at h; cases h
      | some r =>
        rw [h3] at h
        dsimp only at h
        cases h
        exact ⟨v, m, rfl, rfl, h3, rfl, rfl⟩

theorem scoreFeature_missing {rt : RarityTable} {row : Row} {f : String}
    (h : getVal row f = none) : scoreFeature rt row f = none := by
  unfold scoreFeature
  rw [h]

theorem scoreFeature_no_feature {rt : RarityTable} {row : Row} {f : String}
    (h : lookupKey rt f = none) : scoreFeature rt row f = none := by
  unfold scoreFeature
  cases h1 : getVal row f with
  | none => rfl
  | some v =>
    dsimp only
    rw [h]

theorem scoreFeature_no_value {rt : RarityTable} {row : Row} {f : String} {v : String}
    {m : List (String × ℚ)} (h1 : getVal row f = some v) (h2 : lookupKey rt f = some m)
    (h3 : lookupKey m v = none) : scoreFeature rt row f = none := by
  unfold scoreFeature
  rw [h1]
  dsimp only
  rw [h2]
  dsimp only
  rw [h3]

theorem collectLoop_fst (rt : RarityTable) (row : Row) (cols : List String) :
    (collectLoop rt row cols).1 = (collectLoop rt row cols).2.map Contribution.rarity := by
  induction cols with
  | nil => rfl
  | cons f rest ih =>
    simp only [collectLoop]
    cases h : scoreFeature rt row f with
    | none => simpa using ih
    | some c => simp [ih]

theorem collectLoop_mem {rt : RarityTable} {row : Row} {cols : List String}
    {c : Contribution} (hc : c ∈ (collectLoop rt row cols).2) :
    ∃ f v m, lookupKey rt f = some m ∧ lookupKey m v = some c.rarity := by
  induction cols with
  | nil => cases hc
  | cons f rest ih =>
    simp only [collectLoop] at hc
    cases h : scoreFeature rt row f with
    | none =>
      rw [h] at hc
      exact ih hc
    | some c' =>
      rw [h] at hc
      rcases List.mem_cons.mp hc with rfl | hc'
      · rcases scoreFeature_eq_some h with ⟨v, m, _, h2, h3, _, _⟩
        exact ⟨f, v, m, h2, h3⟩
      · exact ih hc'

/-! ### Mean bounds -/

theorem list_sum_lt_length {l : List ℚ} (h : l ≠ []) (hx : ∀ x ∈ l, x < 1) :
    l.sum < (l.length : ℚ) := by
  induction l with
  | nil => cases h rfl
  | cons a t ih =>
    cases t with
    | nil => simpa using hx a (by simp)
    | cons b u =>
      have ht := ih (by simp) (fun x hx' => hx x (List.mem_cons_of_mem _ hx'))
      have ha := hx a (by simp)
      simp only [List.sum_cons, List.length_cons] at *
      push_cast at *
      linarith

theorem mean_bounds {l : List ℚ} (h : l ≠ []) (hx : ∀ x ∈ l, 0 ≤ x ∧ x < 1) :
    0 ≤ l.sum / (l.length : ℚ) ∧ l.sum / (l.length : ℚ) < 1 := by
  have hlen : 0 < l.length := List.length_pos.mpr h
  have hlenQ : (0 : ℚ) < (l.length : ℚ) := by exact_mod_cast hlen
  constructor
  · apply div_nonneg _ (le_of_lt hlenQ)
    exact List.sum_nonneg (fun x hxl => (hx x hxl).1)
  · rw [div_lt_one hlenQ]
    exact list_sum_lt_length h (fun x hxl => (hx x hxl).2)

/-! ### Most-common-value scan -/

theorem maxScan_some (l : List (String × Nat)) :
    ∀ a : String × Nat,
      ∃ p, maxScan (some a) l = some p ∧ p ∈ a :: l ∧ (∀ q ∈ a :: l, q.2 ≤ p.2) ∧
        (a :: l).find? (fun q => decide (p.2 ≤ q.2)) = some p := by
  induction l with
  | nil =>
    intro a
    refine ⟨a, rfl, by simp, by simp, ?_⟩
    rw [List.find?_cons_of_pos _ (by simp)]
  | cons b rest ih =>
    intro a
    by_cases hab : a.2 < b.2
    · obtain ⟨p, h1, h2, h3, h4⟩ := ih b
      refine ⟨p, ?_, ?_, ?_, ?_⟩
      · simpa [maxScan, hab] using h1
      · rcases List.mem_cons.mp h2 with rfl | h2'
        · exact List.mem_cons_of_mem _ (List.mem_cons_self _ _)
        · exact List.mem_cons_of_mem _ (List.mem_cons_of_mem _ h2')
      · intro q hq
        rcases List.mem_cons.mp hq with rfl | hq'
        · exact le_trans (le_of_lt hab) (h3 b (List.mem_cons_self _ _))
        · exact h3 q hq'
      · have hbp : b.2 ≤ p.2 := h3 b (List.mem_cons_self _ _)
        have hpa : ¬p.2 ≤ a.2 := by omega
        rw [List.find?_cons_of_neg _ (by simpa using hpa)]
        exact h4
    · obtain ⟨p, h1, h2, h3, h4⟩ := ih a
      refine ⟨p, ?_, ?_, ?_, ?_⟩
      · simpa [maxScan, hab] using h1
      · rcases List.mem_cons.mp h2 with rfl | h2'
        · exact List.mem_cons_self _ _
        · exact List.mem_cons_of_mem _ (List.mem_cons_of_mem _ h2')
      · intro q hq
        rcases List.mem_cons.mp hq with rfl | hq'
        · exact h3 q (List.mem_cons_self _ _)
        · rcases List.mem_cons.mp hq' with rfl | hq2
          · have hap : a.2 ≤ p.2 := h3 a (List.mem_cons_self _ _)
            omega
          · exact h3 q (List.mem_cons_of_mem _ hq2)
      · by_cases hpa : p.2 ≤ a.2
        · have hpeq : p = a := by
            rw [List.find?_cons_of_pos _ (by simpa using hpa)] at h4
            exact (Option.some.inj h4).symm
          subst hpeq
          rw [List.find?_cons_of_pos _ (by simp)]
        · have h4' : rest.find? (fun q => decide (p.2 ≤ q.2)) = some p := by
            rwa [List.find?_cons_of_neg _ (by simpa using hpa)] at h4
          have hpb : ¬p.2 ≤ b.2 := by omega
          rw [List.find?_cons_of_neg _ (by simpa using hpa),
            List.find?_cons_of_neg _ (by simpa using hpb)]
          exact h4'

theorem countList_ne_nil {l : List String} (h : l ≠ []) : countList l ≠ [] := by
  have : firstKeys l ≠ [] := firstKeys_ne_nil h
  simpa [countList] using this

theorem most_common_spec (l : List String) (h : l ≠ []) :
    ∃ v c, most_common l = some (v, c) ∧ (v, c) ∈ countList l ∧ c = l.count v ∧
      (∀ q ∈ countList l, q.2 ≤ c) ∧
      (countList l).find? (fun q => decide (c ≤ q.2)) = some (v, c) := by
  obtain ⟨a, t, hat⟩ := List.exists_cons_of_ne_nil (countList_ne_nil h)
  obtain ⟨p, h1, h2, h3, h4⟩ := maxScan_some t a
  have hm : most_common l = some p := by
    rw [most_common, hat]
    simpa [maxScan] using h1
  have hpmem : p ∈ countList l := by
    rw [hat]
    exact h2
  obtain ⟨hp1, hp2⟩ := countList_mem hpmem
  refine ⟨p.1, p.2, by simpa using hm, by simpa using hpmem, hp2, ?_, ?_⟩
  · intro q hq
    rw [hat] at hq
    exact h3 q hq
  · rw [hat]
    simpa using h4

/-! ### Frequency sums -/

theorem sum_map_div {α : Type} (l : List α) (f : α → ℚ) (c : ℚ) :
    (l.map (fun a => f a / c)).sum = (l.map f).sum / c := by
  induction l with
  | nil => simp
  | cons a t ih => simp [ih, add_div]

theorem sum_map_natCast {α : Type} (l : List α) (f : α → ℕ) :
    (l.map (fun a => (f a : ℚ))).sum = ((l.map f).sum : ℚ) := by
  induction l with
  | nil => simp
  | cons a t ih =>
    push_cast
    simp [ih]

theorem freq_sum (l : List String) (h : l ≠ []) :
    ((countList l).map (fun p => (p.2 : ℚ) / (l.length : ℚ))).sum = 1 := by
  have hlen : ((l.length : ℚ)) ≠ 0 := by
    have : 0 < l.length := List.length_pos.mpr h
    exact_mod_cast Nat.pos_iff_ne_zero.mp this
  rw [countList, List.map_map]
  have heq : ((fun p : String × Nat => (p.2 : ℚ) / (l.length : ℚ)) ∘
      fun v => (v, l.count v)) = fun v => ((l.count v : ℚ)) / (l.length : ℚ) := rfl
  rw [heq, sum_map_div _ (fun v => ((l.count v : ℚ))) _, sum_map_natCast,
    sum_counts_firstKeys, div_self hlen]

/-! ### Record projections -/

theorem mkRecord_score_cases (rt : RarityTable) (cols : List String) (row : Row) :
    ((collectLoop rt row cols).1 = [] ∧ (mkRecord rt cols row).weirdness_score = none ∧
      (mkRecord rt cols row).num_features = 0) ∨
    ((collectLoop rt row cols).1 ≠ [] ∧
      (mkRecord rt cols row).weirdness_score =
        some ((collectLoop rt row cols).1.sum / ((collectLoop rt row cols).1.length : ℚ)) ∧
      (mkRecord rt cols row).num_features = (collectLoop rt row cols).1.length) := by
  by_cases h : (collectLoop rt row cols).1 = []
  · exact Or.inl ⟨h, by simp [mkRecord, h], by simp [mkRecord, h]⟩
  · exact Or.inr ⟨h, by simp [mkRecord, h], by simp [mkRecord, h]⟩

theorem mkRecord_num (rt : RarityTable) (cols : List String) (row : Row) :
    (mkRecord rt cols row).num_features = (collectLoop rt row cols).2.length := by
  rcases mkRecord_score_cases rt cols row with ⟨h, _, hn⟩ | ⟨h, _, hn⟩
  · have h2 : (collectLoop rt row cols).2 = [] := by
      have hf := collectLoop_fst rt row cols
      rw [h] at hf
      exact List.map_eq_nil_iff.mp hf.symm
    rw [hn, h2]
    rfl
  · rw [hn, collectLoop_fst, List.length_map]

theorem lookupKey_mem {α : Type} {l : List (String × α)} {k : String} {x : α}
    (h : lookupKey l k = some x) : (k, x) ∈ l := by
  unfold lookupKey at h
  cases hf : l.find? (fun p => p.1 == k) with
  | none => rw [hf] at h; cases h
  | some p =>
    rw [hf] at h
    have hp := List.find?_some hf
    have hpm := List.mem_of_find?_eq_some hf
    have hx : p.2 = x := by simpa using h
    have hk : p.1 = k := by simpa using hp
    rw [← hx, ← hk]
    simpa [Prod.mk.eta] using hpm

/-! ### The claims -/

/-- C7: a feature identifier with zero non-missing values across all language
records is omitted by the Estimator from both the Rarity Table and the
Feature Statistics; no zero-filled entry is created for it. -/
theorem claim_C7 (rows : List Row) (cols : List String) (f : String)
    (h : dropna rows f = []) :
    lookupKey (calculate_feature_rarity_scores rows cols).1 f = none ∧
    lookupKey (calculate_feature_rarity_scores rows cols).2 f = none := by
  rw [table_lookup_eq, stats_lookup_eq]
  simp [h]

/-- Witness for C7 on the concrete dataset: the column `"H"` has no
non-missing value, and the two Estimator outputs have no entry for it. -/
theorem claim_C7_witness :
    dropna rowsW "H" = [] ∧
    (lookupKey (calculate_feature_rarity_scores rowsW colsW).1 "H" = none ∧
     lookupKey (calculate_feature_rarity_scores rowsW colsW).2 "H" = none) :=
  ⟨by decide, claim_C7 rowsW colsW "H" (by decide)⟩

/-- C3: for every feature column with at least one non-missing observation,
the frequencies `count(v)/total` over its distinct values sum to 1, and every
rarity score stored in the Rarity Table entry of that feature lies in `[0,1]`. -/
theorem claim_C3 (rows : List Row) (cols : List String) (f : String)
    (h1 : f ∈ cols) (h2 : dropna rows f ≠ []) :
    ((countList (dropna rows f)).map
        (fun p => (p.2 : ℚ) / ((dropna rows f).length : ℚ))).sum = 1 ∧
    ∃ m, lookupKey (calculate_feature_rarity_scores rows cols).1 f = some m ∧
      ∀ p ∈ m, 0 ≤ p.2 ∧ p.2 ≤ 1 := by
  refine ⟨freq_sum _ h2, featureRarity (dropna rows f), ?_, ?_⟩
  · rw [table_lookup_eq]
    simp [h1, h2]
  · intro p hp
    obtain ⟨hl, hr⟩ := featureRarity_bounds hp
    exact ⟨hl, le_of_lt hr⟩

/-- Witness for C3 on the concrete dataset: column `"F"` has values
`[A, A, A, B]`; its frequencies sum to 1 and its rarities lie in `[0,1]`. -/
theorem claim_C3_witness :
    ("F" ∈ colsW ∧ dropna rowsW "F" ≠ []) ∧
    (((countList (dropna rowsW "F")).map
        (fun p => (p.2 : ℚ) / ((dropna rowsW "F").length : ℚ))).sum = 1 ∧
     ∃ m, lookupKey (calculate_feature_rarity_scores rowsW colsW).1 "F" = some m ∧
       ∀ p ∈ m, 0 ≤ p.2 ∧ p.2 ≤ 1) :=
  ⟨⟨by decide, by decide⟩, claim_C3 rowsW colsW "F" (by decide) (by decide)⟩

/-- C9: in the Rarity Table entry of a feature with `N ≥ 1` non-missing
observations, a value appearing in all `N` observations has rarity exactly 0,
and a value appearing exactly once has rarity exactly `1 - 1/N`. -/
theorem claim_C9 (rows : List Row) (cols : List String) (f v : String)
    (h1 : f ∈ cols) (h2 : v ∈ dropna rows f) :
    ∃ m, lookupKey (calculate_feature_rarity_scores rows cols).1 f = some m ∧
      ((dropna rows f).count v = (dropna rows f).length → lookupKey m v = some 0) ∧
      ((dropna rows f).count v = 1 →
        lookupKey m v = some (1 - 1 / ((dropna rows f).length : ℚ))) := by
  have hne : dropna rows f ≠ [] := List.ne_nil_of_mem h2
  have hlen : ((dropna rows f).length : ℚ) ≠ 0 := by
    have : 0 < (dropna rows f).length := List.length_pos.mpr hne
    exact_mod_cast Nat.pos_iff_ne_zero.mp this
  refine ⟨featureRarity (dropna rows f), ?_, ?_, ?_⟩
  · rw [table_lookup_eq]
    simp [h1, hne]
  · intro hc
    rw [lookupKey_featureRarity]
    rw [if_pos h2, hc, div_self hlen]
    simp
  · intro hc
    rw [lookupKey_featureRarity]
    rw [if_pos h2, hc]
    simp

/-- Witness for C9 on the concrete dataset: in column `"F"` with values
`[A, A, A, B]`, the value `"B"` appears exactly once and receives rarity
`1 - 1/4`. -/
theorem claim_C9_witness :
    ("F" ∈ colsW ∧ "B" ∈ dropna rowsW "F") ∧
    (∃ m, lookupKey (calculate_feature_rarity_scores rowsW colsW).1 "F" = some m ∧
      ((dropna rowsW "F").count "B" = (dropna rowsW "F").length →
        lookupKey m "B" = some 0) ∧
      ((dropna rowsW "F").count "B" = 1 →
        lookupKey m "B" = some (1 - 1 / ((dropna rowsW "F").length : ℚ)))) :=
  ⟨⟨by decide, by decide⟩, claim_C9 rowsW colsW "F" "B" (by decide) (by decide)⟩

/-- C5: for every feature with at least one non-missing observation, the
Feature Statistics entry records the total non-missing count, the number of
distinct values, and a single most frequent value with its count, choosing
among tied values the one first encountered in iteration order (it is the
first counter entry whose count attains the maximum). -/
theorem claim_C5 (rows : List Row) (cols : List String) (f : String)
    (h1 : f ∈ cols) (h2 : dropna rows f ≠ []) :
    ∃ st, lookupKey (calculate_feature_rarity_scores rows cols).2 f = some st ∧
      st.total_responses = (dropna rows f).length ∧
      st.unique_values = (dropna rows f).dedup.length ∧
      ∃ v c, st.most_common = some (v, c) ∧ (v, c) ∈ countList (dropna rows f) ∧
        c = (dropna rows f).count v ∧
        (∀ q ∈ countList (dropna rows f), q.2 ≤ c) ∧
        (countList (dropna rows f)).find? (fun q => decide (c ≤ q.2)) = some (v, c) := by
  refine ⟨⟨(dropna rows f).length, (countList (dropna rows f)).length,
    most_common (dropna rows f)⟩, ?_, rfl, ?_, ?_⟩
  · rw [stats_lookup_eq]
    simp [h1, h2]
  · show (countList (dropna rows f)).length = (dropna rows f).dedup.length
    rw [countList, List.length_map, length_firstKeys]
  · exact most_common_spec _ h2

/-- Witness for C5 on the tie dataset: column `"F"` of `rowsX` has values
`[A, B]`, both with count 1; the most frequent value is the first-encountered
`("A", 1)`. -/
theorem claim_C5_witness :
    ("F" ∈ colsX ∧ dropna rowsX "F" ≠ []) ∧
    (∃ st, lookupKey (calculate_feature_rarity_scores rowsX colsX).2 "F" = some st ∧
      st.total_responses = (dropna rowsX "F").length ∧
      st.unique_values = (dropna rowsX "F").dedup.length ∧
      ∃ v c, st.most_common = some (v, c) ∧ (v, c) ∈ countList (dropna rowsX "F") ∧
        c = (dropna rowsX "F").count v ∧
        (∀ q ∈ countList (dropna rowsX "F"), q.2 ≤ c) ∧
        (countList (dropna rowsX "F")).find? (fun q => decide (c ≤ q.2)) = some (v, c)) :=
  ⟨⟨by decide, by decide⟩, claim_C5 rowsX colsX "F" (by decide) (by decide)⟩

/-- C6: the per-feature step of the aggregator yields no contribution (a skip, not
an error) when the value is missing, when the feature has no Rarity Table
entry, or when the value is absent from the rarity map of that feature; and when
the Rarity Table is the one the Estimator built from the same dataset, the
third situation cannot arise: a present value of a row of the dataset is
always in the rarity map of its feature. -/
theorem claim_C6 (rows : List Row) (cols : List String) (rt : RarityTable)
    (row : Row) (f : String) :
    ((getVal row f = none → scoreFeature rt row f = none) ∧
     (lookupKey rt f = none → scoreFeature rt row f = none) ∧
     (∀ v m, getVal row f = some v → lookupKey rt f = some m →
       lookupKey m v = none → scoreFeature rt row f = none)) ∧
    (row ∈ rows → ∀ v m, getVal row f = some v →
      lookupKey (calculate_feature_rarity_scores rows cols).1 f = some m →
      (lookupKey m v).isSome) := by
  refine ⟨⟨fun h => scoreFeature_missing h, fun h => scoreFeature_no_feature h,
    fun v m hv hm hn => scoreFeature_no_value hv hm hn⟩, ?_⟩
  intro hrow v m hv hm
  rw [table_lookup_eq] at hm
  by_cases hcond : f ∈ cols ∧ dropna rows f ≠ []
  · rw [if_pos hcond] at hm
    have hmeq : m = featureRarity (dropna rows f) := (Option.some.inj hm).symm
    subst hmeq
    rw [lookupKey_featureRarity, if_pos (getVal_mem_dropna hrow hv)]
    rfl
  · rw [if_neg hcond] at hm
    cases hm

/-- Witness for C6 on the concrete dataset: row `rowB4` has value `"B"` for
feature `"F"`, and `"B"` is present in the rarity map the Estimator built for
`"F"` from the same dataset. -/
theorem claim_C6_witness :
    (rowB4 ∈ rowsW ∧ getVal rowB4 "F" = some "B" ∧
      lookupKey (calculate_feature_rarity_scores rowsW colsW).1 "F" =
        some (featureRarity (dropna rowsW "F"))) ∧
    (lookupKey (featureRarity (dropna rowsW "F")) "B").isSome :=
  ⟨⟨by decide, by decide, rfl⟩,
   (claim_C6 rowsW colsW rtW rowB4 "F").2 (by decide) "B"
     (featureRarity (dropna rowsW "F")) (by decide) rfl⟩

/-- C1: a language record whose collected rarity list is empty does not
appear in the output sequence (the aggregator output after the `notna`
filter) at all: its would-be record carries a `None` score and zero feature
count and is removed, and every record of the output has a non-null score and
a positive feature count. -/
theorem claim_C1 (rows : List Row) (cols : List String) (rt : RarityTable) (row : Row)
    (hempty : (collectLoop rt row cols).1 = []) :
    mkRecord rt cols row ∉ scoredRecords rows cols rt ∧
    (mkRecord rt cols row).weirdness_score = none ∧
    (mkRecord rt cols row).num_features = 0 ∧
    ∀ r ∈ scoredRecords rows cols rt, r.weirdness_score ≠ none ∧ 0 < r.num_features := by
  have hscore : (mkRecord rt cols row).weirdness_score = none := by
    simp [mkRecord, hempty]
  have hnum : (mkRecord rt cols row).num_features = 0 := by
    simp [mkRecord, hempty]
  have hall : ∀ r ∈ scoredRecords rows cols rt,
      r.weirdness_score ≠ none ∧ 0 < r.num_features := by
    intro r hr
    obtain ⟨hmem, hpred⟩ := List.mem_filter.mp hr
    constructor
    · intro hnone
      rw [hnone] at hpred
      simp at hpred
    · obtain ⟨row2, _, heq⟩ := List.mem_map.mp hmem
      subst heq
      rcases mkRecord_score_cases rt cols row2 with ⟨_, hs, _⟩ | ⟨h2, _, hn⟩
      · rw [hs] at hpred
        simp at hpred
      · rw [hn]
        exact List.length_pos.mpr h2
  refine ⟨?_, hscore, hnum, hall⟩
  intro hmem
  exact (hall _ hmem).1 hscore

/-- Witness for C1: the all-missing language `rowE5` collects nothing, and
its record is absent from the scored output of the concrete dataset. -/
theorem claim_C1_witness :
    (collectLoop rtW rowE5 colsW).1 = [] ∧
    (mkRecord rtW colsW rowE5 ∉ scoredRecords rowsW colsW rtW ∧
     (mkRecord rtW colsW rowE5).weirdness_score = none ∧
     (mkRecord rtW colsW rowE5).num_features = 0 ∧
     ∀ r ∈ scoredRecords rowsW colsW rtW, r.weirdness_score ≠ none ∧ 0 < r.num_features) :=
  ⟨by decide, claim_C1 rowsW colsW rtW rowE5 (by decide)⟩

/-- C2: every record of the scored output comes from a dataset row, its
`num_features` is the number of collected contribution records, and its
`weirdness_score` is the arithmetic mean of the collected rarities. -/
theorem claim_C2 (rows : List Row) (cols : List String) (rt : RarityTable) :
    ∀ r ∈ scoredRecords rows cols rt, ∃ row, row ∈ rows ∧ r = mkRecord rt cols row ∧
      r.num_features = (collectLoop rt row cols).2.length ∧
      r.weirdness_score = some
        (((collectLoop rt row cols).2.map Contribution.rarity).sum /
          (((collectLoop rt row cols).2.length : ℚ))) := by
  intro r hr
  obtain ⟨hmem, hpred⟩ := List.mem_filter.mp hr
  obtain ⟨row, hrow, hre⟩ := List.mem_map.mp hmem
  subst hre
  refine ⟨row, hrow, rfl, mkRecord_num rt cols row, ?_⟩
  rcases mkRecord_score_cases rt cols row with ⟨_, hs, _⟩ | ⟨_, hs, _⟩
  · rw [hs] at hpred
    simp at hpred
  · rw [hs, collectLoop_fst]
    simp

/-- Witness for C2: the record of `rowB4` (value `"B"`, one contribution of
rarity `3/4`) is in the scored output and satisfies the mean/count laws. -/
theorem claim_C2_witness :
    mkRecord rtW colsW rowB4 ∈ scoredRecords rowsW colsW rtW ∧
    (∃ row, row ∈ rowsW ∧ mkRecord rtW colsW rowB4 = mkRecord rtW colsW row ∧
      (mkRecord rtW colsW rowB4).num_features = (collectLoop rtW row colsW).2.length ∧
      (mkRecord rtW colsW rowB4).weirdness_score = some
        (((collectLoop rtW row colsW).2.map Contribution.rarity).sum /
          (((collectLoop rtW row colsW).2.length : ℚ)))) := by
  have hmem : mkRecord rtW colsW rowB4 ∈ scoredRecords rowsW colsW rtW := by
    unfold scoredRecords calculate_weirdness_scores
    refine List.mem_filter.mpr ⟨List.mem_map_of_mem _ (by decide), by decide⟩
  exact ⟨hmem, claim_C2 rowsW colsW rtW _ hmem⟩

/-- C4: `top_weird_features` is the contribution list sorted by rarity
descending with a stable sort and truncated to at most 5 entries: the sorted
list is a permutation of the contributions, the stored list is pairwise
descending in rarity, any pair already in descending rarity order keeps its
relative order (ties preserve the per-feature iteration order), and the
stored length is `min(num_features, 5)`. -/
theorem claim_C4 (rt : RarityTable) (cols : List String) (row : Row)
    (a b : Contribution) (hab : List.Sublist [a, b] (collectLoop rt row cols).2)
    (hr : b.rarity ≤ a.rarity) :
    (mkRecord rt cols row).top_weird_features =
      (List.insertionSort contribGE (collectLoop rt row cols).2).take 5 ∧
    (List.insertionSort contribGE (collectLoop rt row cols).2).Perm
      (collectLoop rt row cols).2 ∧
    (mkRecord rt cols row).top_weird_features.Pairwise contribGE ∧
    List.Sublist [a, b] (List.insertionSort contribGE (collectLoop rt row cols).2) ∧
    (mkRecord rt cols row).top_weird_features.length =
      min (mkRecord rt cols row).num_features 5 := by
  have htop : (mkRecord rt cols row).top_weird_features =
      (List.insertionSort contribGE (collectLoop rt row cols).2).take 5 := rfl
  refine ⟨htop, List.perm_insertionSort _ _, ?_,
    List.pair_sublist_insertionSort hr hab, ?_⟩
  · rw [htop]
    exact List.Pairwise.sublist (List.take_sublist _ _)
      (List.sorted_insertionSort contribGE _)
  · rw [htop, mkRecord_num, List.length_take, List.length_insertionSort, Nat.min_comm]

/-- Witness for C4 on the tie dataset: `rowX1` collects `[cFA, cGB]`, two
contributions with equal rarity `1/2`; the tied pair keeps its original
order in the sorted list. -/
theorem claim_C4_witness :
    (List.Sublist [cFA, cGB] (collectLoop rtX rowX1 colsX).2 ∧ cGB.rarity ≤ cFA.rarity) ∧
    ((mkRecord rtX colsX rowX1).top_weird_features =
      (List.insertionSort contribGE (collectLoop rtX rowX1 colsX).2).take 5 ∧
    (List.insertionSort contribGE (collectLoop rtX rowX1 colsX).2).Perm
      (collectLoop rtX rowX1 colsX).2 ∧
    (mkRecord rtX colsX rowX1).top_weird_features.Pairwise contribGE ∧
    List.Sublist [cFA, cGB] (List.insertionSort contribGE (collectLoop rtX rowX1 colsX).2) ∧
    (mkRecord rtX colsX rowX1).top_weird_features.length =
      min (mkRecord rtX colsX rowX1).num_features 5) :=
  ⟨⟨List.Sublist.refl _, le_refl _⟩,
   claim_C4 rtX colsX rowX1 cFA cGB (List.Sublist.refl _) (le_refl _)⟩

/-- C8: the robust subset of `main` contains exactly the scored records with
`num_features ≥ MIN_FEATURES`, the threshold is 30, and for thresholds
`t1 ≤ t2` the subset at `t2` is a sublist of (so never larger than) the
subset at `t1`. -/
theorem claim_C8 (rows : List Row) (cols : List String) (t1 t2 : Nat) (h : t1 ≤ t2) :
    (∀ r, r ∈ mainRobust rows cols ↔
      r ∈ mainScored rows cols ∧ MIN_FEATURES ≤ r.num_features) ∧
    MIN_FEATURES = 30 ∧
    List.Sublist (robustSubset (mainScored rows cols) t2) (robustSubset (mainScored rows cols) t1) ∧
    (robustSubset (mainScored rows cols) t2).length ≤
      (robustSubset (mainScored rows cols) t1).length := by
  have hsub : List.Sublist (robustSubset (mainScored rows cols) t2)
      (robustSubset (mainScored rows cols) t1) := by
    apply List.monotone_filter_right
    intro a ha
    simp only [decide_eq_true_eq] at ha ⊢
    omega
  refine ⟨?_, rfl, hsub, hsub.length_le⟩
  intro r
  simp [mainRobust, robustSubset, List.mem_filter]

/-- Witness for C8 on the concrete dataset, with thresholds 10 and 40. -/
theorem claim_C8_witness :
    10 ≤ 40 ∧
    ((∀ r, r ∈ mainRobust rowsW colsW ↔
      r ∈ mainScored rowsW colsW ∧ MIN_FEATURES ≤ r.num_features) ∧
    MIN_FEATURES = 30 ∧
    List.Sublist (robustSubset (mainScored rowsW colsW) 40) (robustSubset (mainScored rowsW colsW) 10) ∧
    (robustSubset (mainScored rowsW colsW) 40).length ≤
      (robustSubset (mainScored rowsW colsW) 10).length) :=
  ⟨by decide, claim_C8 rowsW colsW 10 40 (by decide)⟩

/-- C10: every rarity score stored in the Rarity Table is nonnegative and
strictly below 1 (each mapped value occurs at least once), and consequently
every `weirdness_score` in the scored output of `main` lies in `[0, 1)`. -/
theorem claim_C10 (rows : List Row) (cols : List String) :
    (∀ f m, lookupKey (calculate_feature_rarity_scores rows cols).1 f = some m →
      ∀ p ∈ m, 0 ≤ p.2 ∧ p.2 < 1) ∧
    (∀ r ∈ mainScored rows cols, ∃ q, r.weirdness_score = some q ∧ 0 ≤ q ∧ q < 1) := by
  have htab : ∀ f m, lookupKey (calculate_feature_rarity_scores rows cols).1 f = some m →
      ∀ p ∈ m, 0 ≤ p.2 ∧ p.2 < 1 := by
    intro f m hm p hp
    rw [table_lookup_eq] at hm
    by_cases hcond : f ∈ cols ∧ dropna rows f ≠ []
    · rw [if_pos hcond] at hm
      have hmeq : m = featureRarity (dropna rows f) := (Option.some.inj hm).symm
      subst hmeq
      exact featureRarity_bounds hp
    · rw [if_neg hcond] at hm
      cases hm
  refine ⟨htab, ?_⟩
  intro r hr
  obtain ⟨hmem, hpred⟩ := List.mem_filter.mp hr
  obtain ⟨row, _, hre⟩ := List.mem_map.mp hmem
  subst hre
  rcases mkRecord_score_cases _ cols row with ⟨_, hs, _⟩ | ⟨h2, hs, _⟩
  · rw [hs] at hpred
    simp at hpred
  · refine ⟨_, hs, ?_⟩
    apply mean_bounds h2
    intro x hx
    rw [collectLoop_fst] at hx
    obtain ⟨c, hc, hcr⟩ := List.mem_map.mp hx
    obtain ⟨f, v, m, hm, hv⟩ := collectLoop_mem hc
    have hpm : (v, c.rarity) ∈ m := lookupKey_mem hv
    rw [← hcr]
    exact htab f m hm (v, c.rarity) hpm

/-- Witness for C10: the record of `rowB4` in the scored
output has a score (namely `3/4`) in `[0, 1)`. -/
theorem claim_C10_witness :
    mkRecord rtW colsW rowB4 ∈ mainScored rowsW colsW ∧
    (∃ q, (mkRecord rtW colsW rowB4).weirdness_score = some q ∧ 0 ≤ q ∧ q < 1) := by
  have hmem : mkRecord rtW colsW rowB4 ∈ mainScored rowsW colsW := by
    unfold mainScored scoredRecords calculate_weirdness_scores
    refine List.mem_filter.mpr ⟨List.mem_map_of_mem _ (by decide), by decide⟩
  exact ⟨hmem, (claim_C10 rowsW colsW).2 _ hmem⟩

end CalcWeirdness
